import Mathlib

/-!
# Verification of the debaker Coalesced-archive codec

Shallow embedding of `debaker.py` (class `CoalescedTool`): the length codec
(`read_int_be`, `read_name_length_be`, `read_value_length_be`), the name
decoding fallback chain (`decode_name`), the decode path (`unpack`, modelled
as a pure function from a byte stream to an entry tree), the encode path
(`repack`, modelled as a pure function from an entry tree to a byte stream,
plus the ini-text parser), path normalization, and `validate_coalesced`.

Text is modelled as a list of Unicode code points (Python `str`); byte
streams as lists of byte values (`List Nat`).
-/

namespace Debaker

/-! ## Length codec (`read_int_be`, `read_name_length_be`, `read_value_length_be`) -/

/-- Model of `read_int_be`: read 4 bytes, interpret as a signed big-endian
32-bit integer; `none` models the `EOFError` on a short read. -/
def readIntBE : List Nat → Option (Int × List Nat)
  | b0 :: b1 :: b2 :: b3 :: r =>
    let u : Nat := b0 * 16777216 + b1 * 65536 + b2 * 256 + b3
    let v : Int := if u < 2147483648 then (u : Int) else (u : Int) - 4294967296
    some (v, r)
  | _ => none

/-- Model of `struct.pack(">i", v)`: the 4 big-endian bytes of the
twos-complement representation of `v`. -/
def writeIntBE (v : Int) : List Nat :=
  let u : Nat := (v % 4294967296).toNat
  [u / 16777216 % 256, u / 65536 % 256, u / 256 % 256, u % 256]

/-- Model of `read_name_length_be`: negative raw value means unicode style,
byte count `(-raw - 1) * 2`; non-negative raw value is the byte count. -/
def readNameLengthBE (s : List Nat) : Option (Nat × List Nat) :=
  match readIntBE s with
  | none => none
  | some (raw, r) =>
    if raw < 0 then some (((-raw - 1) * 2).toNat, r) else some (raw.toNat, r)

/-- Model of `read_value_length_be`: negative raw value means character count
`-raw - 1`; non-negative raw value is the character count. -/
def readValueLengthBE (s : List Nat) : Option (Nat × List Nat) :=
  match readIntBE s with
  | none => none
  | some (raw, r) =>
    if raw < 0 then some ((-raw - 1).toNat, r) else some (raw.toNat, r)

/-! ## Text codecs -/

/-- Strict UTF-16LE decoding of a byte string into code points, as Python
`bytes.decode("utf-16le")`: `none` on odd length or unpaired surrogates,
surrogate pairs combine into one astral code point. -/
def decodeUtf16le : List Nat → Option (List Nat)
  | [] => some []
  | _ :: [] => none
  | b0 :: b1 :: rest =>
    let u := b0 + 256 * b1
    if 55296 ≤ u ∧ u < 56320 then
      match rest with
      | b2 :: b3 :: rest2 =>
        let u2 := b2 + 256 * b3
        if 56320 ≤ u2 ∧ u2 < 57344 then
          match decodeUtf16le rest2 with
          | some cs => some ((65536 + (u - 55296) * 1024 + (u2 - 56320)) :: cs)
          | none => none
        else none
      | _ => none
    else if 56320 ≤ u ∧ u < 57344 then none
    else
      match decodeUtf16le rest with
      | some cs => some (u :: cs)
      | none => none

/-- Latin-1 decoding as Python `bytes.decode("latin-1")`: every byte value is
a code point, so this decoding is total (it never raises). -/
def decodeLatin1 (bs : List Nat) : Option (List Nat) := some bs

/-- Simplified total model of Python `bytes.decode("utf-8", errors="replace")`:
ASCII bytes pass through, anything else becomes U+FFFD.  This branch of
`decode_name` is unreachable because Latin-1 decoding is total, so only
totality of this function matters. -/
def utf8Replace : List Nat → List Nat
  | [] => []
  | b :: rest => (if b < 128 then b else 65533) :: utf8Replace rest

/-- Model of `decode_name`: try UTF-16LE, then Latin-1, then
UTF-8-with-replacement (the nested `try`/`except` chain). -/
def decodeName (bs : List Nat) : List Nat :=
  match decodeUtf16le bs with
  | some s => s
  | none =>
    match decodeLatin1 bs with
    | some s => s
    | none => utf8Replace bs

/-- The fallback chain of `decode_name` written as an ordered list of decoding
attempts returning the first success. -/
def decodeNameChain (bs : List Nat) : Option (List Nat) :=
  (decodeUtf16le bs).orElse fun _ =>
    (decodeLatin1 bs).orElse fun _ => some (utf8Replace bs)

/-- UTF-16LE encoding of one code point as Python `str.encode("utf-16le")`:
2 bytes for BMP code points, a 4-byte surrogate pair for astral ones. -/
def utf16leEncodeChar (c : Nat) : List Nat :=
  if c < 65536 then [c % 256, c / 256 % 256]
  else
    let n := c - 65536
    let hi := 55296 + n / 1024
    let lo := 56320 + n % 1024
    [hi % 256, hi / 256 % 256, lo % 256, lo / 256 % 256]

/-- UTF-16LE encoding of a string of code points. -/
def utf16leEncode : List Nat → List Nat
  | [] => []
  | c :: cs => utf16leEncodeChar c ++ utf16leEncode cs

/-! ## Path normalization (`unpack`, lines 100-112) -/

/-- The `replace("/", "\\")` character map. -/
def slashToBack (c : Nat) : Nat := if c = 47 then 92 else c

/-- Everything after the first occurrence of `c`, or `[]` when `c` is absent:
`s.split(c, 1)[1] if len(parts) > 1 else ""`. -/
def dropPast (c : Nat) : List Nat → List Nat
  | [] => []
  | x :: xs => if x = c then xs else dropPast c xs

/-- The loop body of the traversal-stripping loop: split on the first
backslash when one is present, otherwise on the first slash. -/
def afterFirstSep (s : List Nat) : List Nat :=
  if 92 ∈ s then dropPast 92 s else dropPast 47 s

/-- Whether the path starts with a traversal segment, as the loop condition
`startswith("..\\") or startswith("../")` (`.` is 46, `\` is 92, `/` is 47). -/
def hasTraversalHead (s : List Nat) : Bool :=
  decide (s.take 3 = [46, 46, 92]) || decide (s.take 3 = [46, 46, 47])

theorem dropPast_length_lt {c : Nat} {s : List Nat} (h : c ∈ s) :
    (dropPast c s).length < s.length := by
  induction s with
  | nil => cases h
  | cons x xs ih =>
    by_cases hx : x = c
    · simp [dropPast, hx]
    · rcases List.mem_cons.mp h with h | h
      · exact absurd h.symm hx
      · simp only [dropPast, if_neg hx, List.length_cons]
        exact Nat.lt_trans (ih h) (Nat.lt_succ_self _)

theorem afterFirstSep_length_lt {s : List Nat} (h : hasTraversalHead s = true) :
    (afterFirstSep s).length < s.length := by
  unfold afterFirstSep
  rw [hasTraversalHead, Bool.or_eq_true, decide_eq_true_eq, decide_eq_true_eq] at h
  by_cases h92 : (92 : Nat) ∈ s
  · simp only [if_pos h92]
    exact dropPast_length_lt h92
  · simp only [if_neg h92]
    have h47 : (47 : Nat) ∈ s := by
      rcases h with h | h
      · exact absurd (List.take_subset 3 s (by rw [h]; simp)) h92
      · exact List.take_subset 3 s (by rw [h]; simp)
    exact dropPast_length_lt h47

/-- One fuel-driven unfolding of the traversal-stripping loop: iterate the
loop body while the loop condition holds, up to `f` times. -/
def stripTraversalsFuel : Nat → List Nat → List Nat
  | 0, s => s
  | f + 1, s =>
    if hasTraversalHead s then stripTraversalsFuel f (afterFirstSep s) else s

/-- The traversal-stripping loop `while startswith("..\\") or ("../"): ...`:
the fuel `s.length` is an iteration bound the loop can never exhaust, because
every iteration strictly shortens the path (`afterFirstSep_length_lt`). -/
def stripTraversals (s : List Nat) : List Nat :=
  stripTraversalsFuel s.length s

theorem stripTraversalsFuel_succ {f : Nat} {s : List Nat} (h : s.length ≤ f) :
    stripTraversalsFuel (f + 1) s = stripTraversalsFuel f s := by
  induction f generalizing s with
  | zero =>
    have hs : s = [] := List.length_eq_zero.mp (Nat.le_zero.mp h)
    subst hs
    rfl
  | succ g ih =>
    show (if hasTraversalHead s then stripTraversalsFuel (g + 1) (afterFirstSep s) else s) =
      (if hasTraversalHead s then stripTraversalsFuel g (afterFirstSep s) else s)
    by_cases hh : hasTraversalHead s
    · rw [if_pos hh, if_pos hh]
      exact ih (by have := afterFirstSep_length_lt hh; omega)
    · rw [if_neg hh, if_neg hh]

theorem stripTraversalsFuel_of_le {f : Nat} {s : List Nat} (h : s.length ≤ f) :
    stripTraversalsFuel f s = stripTraversals s := by
  unfold stripTraversals
  induction f with
  | zero => rw [Nat.le_zero.mp h]
  | succ g ih =>
    rcases Nat.lt_or_ge s.length (g + 1) with hlt | hge
    · rw [stripTraversalsFuel_succ (by omega), ih (by omega)]
    · rw [Nat.le_antisymm h hge]

/-- Model of `lstrip("\\/")`: drop leading backslashes and slashes. -/
def lstripSeps (s : List Nat) : List Nat :=
  s.dropWhile fun c => c == 92 || c == 47

/-- Entry path normalization as lines 100-112 of `unpack`: `/` to `\`, strip
leading traversal segments, strip remaining leading separators. -/
def normalizePath (s : List Nat) : List Nat :=
  lstripSeps (stripTraversals (s.map slashToBack))

/-! ## Entry tree -/

/-- A record is a key/value pair of code-point strings. -/
abbrev RecordT := List Nat × List Nat

/-- A section is a name together with an ordered list of records. -/
abbrev SectionT := List Nat × List RecordT

/-- One archive entry: a normalized relative path and its ordered sections. -/
structure Entry where
  path : List Nat
  sections : List SectionT
deriving DecidableEq, Repr

/-! ## Decoder (`unpack`) -/

/-- Model of `rstrip("\r\n")`: drop trailing carriage returns and newlines. -/
def rstripRN (s : List Nat) : List Nat :=
  (s.reverse.dropWhile fun c => c == 13 || c == 10).reverse

/-- The value-reading loop of `unpack` (lines 137-143): read `n` 2-byte units;
the unit `\n\x00` becomes the pilcrow U+00B6, any other unit is decoded as
UTF-16LE (a short read at end of stream decodes to the empty string, exactly
as `b"".decode` does; an odd 1-byte read or a surrogate unit raises). -/
def decodeValueUnits : Nat → List Nat → Option (List Nat × List Nat)
  | 0, s => some ([], s)
  | n + 1, s =>
    if s.take 2 = [10, 0] then
      match decodeValueUnits n (s.drop 2) with
      | some (cs, r) => some (182 :: cs, r)
      | none => none
    else
      match decodeUtf16le (s.take 2) with
      | none => none
      | some u =>
        match decodeValueUnits n (s.drop 2) with
        | some (cs, r) => some (u ++ cs, r)
        | none => none

/-- One record value (lines 135-148): read the value length; if positive,
read that many units, skip the 2-byte terminator and trim trailing `\r`/`\n`;
otherwise the value is empty and nothing more is consumed. -/
def decodeRecordValue (s : List Nat) : Option (List Nat × List Nat) :=
  match readValueLengthBE s with
  | none => none
  | some (n, s1) =>
    if 0 < n then
      match decodeValueUnits n s1 with
      | none => none
      | some (cs, s2) => some (rstripRN cs, s2.drop 2)
    else some ([], s1)

/-- The record loop of `unpack` (lines 127-148): key read with
`read_name_length_be`, key bytes decoded with strict UTF-16LE, 2-byte
terminator skipped, then the value. -/
def decodeRecords : Nat → List Nat → Option (List RecordT × List Nat)
  | 0, s => some ([], s)
  | n + 1, s =>
    match readNameLengthBE s with
    | none => none
    | some (klen, s1) =>
      match decodeUtf16le (s1.take klen) with
      | none => none
      | some key =>
        match decodeRecordValue ((s1.drop klen).drop 2) with
        | none => none
        | some (v, s3) =>
          match decodeRecords n s3 with
          | none => none
          | some (rs, s4) => some ((key, v) :: rs, s4)

/-- The section loop of `unpack` (lines 117-151): section name read with
`read_name_length_be` and strict UTF-16LE, terminator skipped, record count
read with `read_int_be` (a negative count makes the record loop empty). -/
def decodeSections : Nat → List Nat → Option (List SectionT × List Nat)
  | 0, s => some ([], s)
  | n + 1, s =>
    match readNameLengthBE s with
    | none => none
    | some (slen, s1) =>
      match decodeUtf16le (s1.take slen) with
      | none => none
      | some name =>
        match readIntBE ((s1.drop slen).drop 2) with
        | none => none
        | some (recCount, s2) =>
          match decodeRecords recCount.toNat s2 with
          | none => none
          | some (rs, s3) =>
            match decodeSections n s3 with
            | none => none
            | some (ss, s4) => some ((name, rs) :: ss, s4)

/-- The entry loop of `unpack` (lines 89-151): entry name length must be at
least 1 (`File name error` otherwise), the name is decoded with the
`decode_name` fallback chain and normalized, then the sections follow. -/
def decodeEntriesLoop : Nat → List Nat → Option (List Entry × List Nat)
  | 0, s => some ([], s)
  | n + 1, s =>
    match readNameLengthBE s with
    | none => none
    | some (nmlen, s1) =>
      if nmlen < 1 then none
      else
        let path := decodeName (s1.take nmlen)
        match readIntBE ((s1.drop nmlen).drop 2) with
        | none => none
        | some (secCount, s2) =>
          match decodeSections secCount.toNat s2 with
          | none => none
          | some (ss, s3) =>
            match decodeEntriesLoop n s3 with
            | none => none
            | some (es, s4) => some (⟨normalizePath path, ss⟩ :: es, s4)

/-- Model of `unpack`: read the entry count (a negative count makes the entry
loop empty) and decode that many entries; trailing bytes are ignored. -/
def decodeArchive (s : List Nat) : Option (List Entry) :=
  match readIntBE s with
  | none => none
  | some (files, s1) =>
    match decodeEntriesLoop files.toNat s1 with
    | none => none
    | some (es, _) => some es

/-! ## Strict-negative decoder

A verification artifact, not a source function: identical to the decoder
above except that both length reads fail on a non-negative raw length field.
Its success on a stream certifies that every text-field length in that
stream uses the negative/unicode style. -/

/-- `readNameLengthBE` restricted to the negative style. -/
def readNameLengthNeg (s : List Nat) : Option (Nat × List Nat) :=
  match readIntBE s with
  | none => none
  | some (raw, r) =>
    if raw < 0 then some (((-raw - 1) * 2).toNat, r) else none

/-- `readValueLengthBE` restricted to the negative style. -/
def readValueLengthNeg (s : List Nat) : Option (Nat × List Nat) :=
  match readIntBE s with
  | none => none
  | some (raw, r) =>
    if raw < 0 then some ((-raw - 1).toNat, r) else none

/-- `decodeRecordValue` with the strict-negative length read. -/
def strictRecordValue (s : List Nat) : Option (List Nat × List Nat) :=
  match readValueLengthNeg s with
  | none => none
  | some (n, s1) =>
    if 0 < n then
      match decodeValueUnits n s1 with
      | none => none
      | some (cs, s2) => some (rstripRN cs, s2.drop 2)
    else some ([], s1)

/-- `decodeRecords` with the strict-negative length reads. -/
def strictRecords : Nat → List Nat → Option (List RecordT × List Nat)
  | 0, s => some ([], s)
  | n + 1, s =>
    match readNameLengthNeg s with
    | none => none
    | some (klen, s1) =>
      match decodeUtf16le (s1.take klen) with
      | none => none
      | some key =>
        match strictRecordValue ((s1.drop klen).drop 2) with
        | none => none
        | some (v, s3) =>
          match strictRecords n s3 with
          | none => none
          | some (rs, s4) => some ((key, v) :: rs, s4)

/-- `decodeSections` with the strict-negative length reads. -/
def strictSections : Nat → List Nat → Option (List SectionT × List Nat)
  | 0, s => some ([], s)
  | n + 1, s =>
    match readNameLengthNeg s with
    | none => none
    | some (slen, s1) =>
      match decodeUtf16le (s1.take slen) with
      | none => none
      | some name =>
        match readIntBE ((s1.drop slen).drop 2) with
        | none => none
        | some (recCount, s2) =>
          match strictRecords recCount.toNat s2 with
          | none => none
          | some (rs, s3) =>
            match strictSections n s3 with
            | none => none
            | some (ss, s4) => some ((name, rs) :: ss, s4)

/-- `decodeEntriesLoop` with the strict-negative length reads. -/
def strictEntriesLoop : Nat → List Nat → Option (List Entry × List Nat)
  | 0, s => some ([], s)
  | n + 1, s =>
    match readNameLengthNeg s with
    | none => none
    | some (nmlen, s1) =>
      if nmlen < 1 then none
      else
        let path := decodeName (s1.take nmlen)
        match readIntBE ((s1.drop nmlen).drop 2) with
        | none => none
        | some (secCount, s2) =>
          match strictSections secCount.toNat s2 with
          | none => none
          | some (ss, s3) =>
            match strictEntriesLoop n s3 with
            | none => none
            | some (es, s4) => some (⟨normalizePath path, ss⟩ :: es, s4)

/-- `decodeArchive` with the strict-negative length reads. -/
def strictArchive (s : List Nat) : Option (List Entry) :=
  match readIntBE s with
  | none => none
  | some (files, s1) =>
    match strictEntriesLoop files.toNat s1 with
    | none => none
    | some (es, _) => some es

/-! ## Encoder (`repack`) -/

/-- The `value.replace("¶", "\n")` character map (¶ is U+00B6 = 182). -/
def pilcrowToNl (c : Nat) : Nat := if c = 182 then 10 else c

/-- The wire entry path: the fixed `..\..\` prefix plus the relative path
with `/` replaced by `\` (line 177). -/
def binPath (p : List Nat) : List Nat :=
  [46, 46, 92, 46, 46, 92] ++ p.map slashToBack

/-- One encoded text field: `struct.pack(">i", -(len(s) + 1))`, the UTF-16LE
bytes, and the 2-byte null terminator (the pattern of lines 180-182, 212-214
and 221-223). -/
def encodeText (s : List Nat) : List Nat :=
  writeIntBE (-(s.length + 1)) ++ utf16leEncode s ++ [0, 0]

/-- One encoded record value (lines 199 and 225-227): pilcrows become
embedded newlines before the length is taken and the bytes are written. -/
def encodeValueField (v : List Nat) : List Nat :=
  encodeText (v.map pilcrowToNl)

/-- One encoded record (lines 219-227). -/
def encodeRecord (r : RecordT) : List Nat :=
  encodeText r.1 ++ encodeValueField r.2

/-- One encoded section (lines 210-227). -/
def encodeSection (sec : SectionT) : List Nat :=
  encodeText sec.1 ++ writeIntBE sec.2.length ++ (sec.2.map encodeRecord).flatten

/-- One encoded entry (lines 173-227). -/
def encodeEntry (e : Entry) : List Nat :=
  encodeText (binPath e.path) ++ writeIntBE e.sections.length ++
    (e.sections.map encodeSection).flatten

/-- Model of `repack` on an already-parsed entry tree: the entry count
followed by the entries in order (lines 169-227). -/
def repackEntries (es : List Entry) : List Nat :=
  writeIntBE es.length ++ (es.map encodeEntry).flatten

/-! ## Validation (`validate_coalesced`) -/

/-- Model of `validate_coalesced`: read the entry count and the first entry
name (length, bytes, fallback-chain decode), then reject when the count is
`0` or greater than `10000`; any read failure is caught and rejects. -/
def validateCoalesced (s : List Nat) : Bool :=
  match readIntBE s with
  | none => false
  | some (files, s1) =>
    match readNameLengthBE s1 with
    | none => false
    | some (nmlen, s2) =>
      let _fullpath := decodeName (s2.take nmlen)
      if files = 0 ∨ 10000 < files then false else true

/-! ## Ini-text parsing (`repack`, lines 184-205) -/

/-- Drop trailing characters satisfying `p`. -/
def rstripIf (p : Nat → Bool) (l : List Nat) : List Nat :=
  (l.reverse.dropWhile p).reverse

/-- Model of `line.rstrip("\n").rstrip("\r")`. -/
def stripLine (l : List Nat) : List Nat :=
  rstripIf (fun c => c == 13) (rstripIf (fun c => c == 10) l)

/-- Model of `line.startswith("[") and line.endswith("]")` (`[` is 91,
`]` is 93). -/
def isHeaderLine (l : List Nat) : Bool :=
  l.head? == some 91 && l.getLast? == some 93

/-- Model of `line[1:-1]`. -/
def headerName (l : List Nat) : List Nat :=
  (l.drop 1).dropLast

/-- The key of `line.split("=", 1)`: everything before the first `=` (61). -/
def eqKey (l : List Nat) : List Nat :=
  l.takeWhile fun c => c != 61

/-- The value of `line.split("=", 1)`: everything after the first `=`. -/
def eqValue (l : List Nat) : List Nat :=
  dropPast 61 l

/-- The `\n` to `¶` map applied to parsed values (line 199). -/
def nlToPilcrow (c : Nat) : Nat := if c = 10 then 182 else c

/-- The parser state of the ini loop: `current_section`, `current_records`,
`sections`. -/
structure IniState where
  cs : Option (List Nat)
  recs : List RecordT
  secs : List SectionT
deriving DecidableEq, Repr

/-- One iteration of the ini parsing loop (lines 190-202).  On a header line
the current section is flushed only when one is open (records gathered before
the first header are left in place and flow into the first section); on a
`=` line a record is appended with `¶` translated to an embedded newline;
any other line changes nothing. -/
def iniStep (st : IniState) (rawLine : List Nat) : IniState :=
  let line := stripLine rawLine
  if isHeaderLine line then
    match st.cs with
    | some name => ⟨some (headerName line), [], st.secs ++ [(name, st.recs)]⟩
    | none => ⟨some (headerName line), st.recs, st.secs⟩
  else if 61 ∈ line then
    ⟨st.cs, st.recs ++ [(eqKey line, (eqValue line).map nlToPilcrow)], st.secs⟩
  else st

/-- The final flush after the loop (lines 204-205). -/
def iniFinish (st : IniState) : List SectionT :=
  match st.cs with
  | some name => st.secs ++ [(name, st.recs)]
  | none => st.secs

/-- Model of the ini parsing of one document (lines 184-205), from the list
of raw lines to the list of sections. -/
def parseIni (lines : List (List Nat)) : List SectionT :=
  iniFinish (lines.foldl iniStep ⟨none, [], []⟩)

/-! ## Validity predicates for round-trip statements -/

/-- A code point the codec transports faithfully: BMP and not a surrogate
(Python cannot even UTF-16LE-encode lone surrogates, and the
2-bytes-at-a-time value reads of the decoder reject surrogate halves). -/
def ValidChar (c : Nat) : Prop := c < 55296 ∨ (57344 ≤ c ∧ c < 65536)

/-- Transportable text: valid characters and a length small enough for the
`-(len + 1)` length field to stay inside a signed 32-bit integer. -/
def ValidText (s : List Nat) : Prop :=
  (∀ c ∈ s, ValidChar c) ∧ s.length + 8 < 2147483648

/-- An entry path the decoder maps back to itself: non-empty, no `/` (the
decoder rewrites them to `\`), not starting with a separator or with a
traversal segment (both are stripped). -/
def ValidPath (p : List Nat) : Prop :=
  ValidText p ∧ p ≠ [] ∧ (47 : Nat) ∉ p ∧
    p.take 3 ≠ [46, 46, 92] ∧ p.head? ≠ some 92

/-- A value the decoder maps back to itself: non-empty (the encoder writes a
terminator after an empty value that the decoder does not skip), in text
form (no literal newline: embedded newlines are carried as `¶`), and not
ending in a carriage return (the decoder trims trailing `\r`). -/
def ValidValue (v : List Nat) : Prop :=
  ValidText v ∧ v ≠ [] ∧ (10 : Nat) ∉ v ∧ v.getLast? ≠ some 13

/-- A record the codec round-trips. -/
def ValidRecord (r : RecordT) : Prop :=
  ValidText r.1 ∧ r.1 ≠ [] ∧ ValidValue r.2

/-- A section the codec round-trips. -/
def ValidSection (sec : SectionT) : Prop :=
  ValidText sec.1 ∧ sec.1 ≠ [] ∧ sec.2.length < 2147483648 ∧
    ∀ r ∈ sec.2, ValidRecord r

/-- An entry the codec round-trips. -/
def ValidEntry (e : Entry) : Prop :=
  ValidPath e.path ∧ e.sections.length < 2147483648 ∧
    ∀ sec ∈ e.sections, ValidSection sec

/-- An entry tree the codec round-trips. -/
def ValidEntries (es : List Entry) : Prop :=
  es.length < 2147483648 ∧ ∀ e ∈ es, ValidEntry e

instance : DecidablePred ValidChar := fun _ => by unfold ValidChar; infer_instance

instance : DecidablePred ValidText := fun _ => by unfold ValidText; infer_instance

instance : DecidablePred ValidPath := fun _ => by unfold ValidPath; infer_instance

instance : DecidablePred ValidValue := fun _ => by unfold ValidValue; infer_instance

instance : DecidablePred ValidRecord := fun _ => by unfold ValidRecord; infer_instance

instance : DecidablePred ValidSection := fun _ => by unfold ValidSection; infer_instance

instance : DecidablePred ValidEntry := fun _ => by unfold ValidEntry; infer_instance

instance : DecidablePred ValidEntries := fun _ => by unfold ValidEntries; infer_instance

/-! ## Length-codec lemmas -/

theorem readIntBE_writeIntBE (v : Int) (r : List Nat)
    (h1 : -2147483648 ≤ v) (h2 : v < 2147483648) :
    readIntBE (writeIntBE v ++ r) = some (v, r) := by
  have h0 : (0 : Int) < 4294967296 := by norm_num
  have hge : 0 ≤ v % 4294967296 := Int.emod_nonneg v (by norm_num)
  have hlt : v % 4294967296 < 4294967296 := Int.emod_lt_of_pos v h0
  simp only [writeIntBE, readIntBE, List.cons_append, List.nil_append,
    Option.some.injEq, Prod.mk.injEq, and_true]
  omega

theorem readNameLengthNeg_write (k : Nat) (r : List Nat)
    (hk : (k : Int) + 1 ≤ 2147483648) :
    readNameLengthNeg (writeIntBE (-((k : Int) + 1)) ++ r) = some (2 * k, r) := by
  unfold readNameLengthNeg
  rw [readIntBE_writeIntBE _ _ (by omega) (by omega)]
  dsimp only
  have hneg : -((k : Int) + 1) < 0 := by omega
  rw [if_pos hneg]
  simp only [Option.some.injEq, Prod.mk.injEq, and_true]
  omega

theorem readValueLengthNeg_write (k : Nat) (r : List Nat)
    (hk : (k : Int) + 1 ≤ 2147483648) :
    readValueLengthNeg (writeIntBE (-((k : Int) + 1)) ++ r) = some (k, r) := by
  unfold readValueLengthNeg
  rw [readIntBE_writeIntBE _ _ (by omega) (by omega)]
  dsimp only
  have hneg : -((k : Int) + 1) < 0 := by omega
  rw [if_pos hneg]
  simp only [Option.some.injEq, Prod.mk.injEq, and_true]
  omega

theorem readNameLength_of_neg {s : List Nat} {x : Nat × List Nat}
    (h : readNameLengthNeg s = some x) : readNameLengthBE s = some x := by
  unfold readNameLengthNeg at h
  unfold readNameLengthBE
  cases hr : readIntBE s with
  | none => rw [hr] at h; cases h
  | some p =>
    obtain ⟨raw, r⟩ := p
    rw [hr] at h
    dsimp only at h ⊢
    by_cases hneg : raw < 0
    · rw [if_pos hneg] at h ⊢; exact h
    · rw [if_neg hneg] at h; cases h

theorem readValueLength_of_neg {s : List Nat} {x : Nat × List Nat}
    (h : readValueLengthNeg s = some x) : readValueLengthBE s = some x := by
  unfold readValueLengthNeg at h
  unfold readValueLengthBE
  cases hr : readIntBE s with
  | none => rw [hr] at h; cases h
  | some p =>
    obtain ⟨raw, r⟩ := p
    rw [hr] at h
    dsimp only at h ⊢
    by_cases hneg : raw < 0
    · rw [if_pos hneg] at h ⊢; exact h
    · rw [if_neg hneg] at h; cases h

/-! ## Text-codec lemmas -/

theorem utf16leEncodeChar_bmp {c : Nat} (hc : c < 65536) :
    utf16leEncodeChar c = [c % 256, c / 256 % 256] := by
  rw [utf16leEncodeChar, if_pos hc]

theorem decodeUtf16le_cons {b0 b1 : Nat} (rest : List Nat)
    (h1 : ¬(55296 ≤ b0 + 256 * b1 ∧ b0 + 256 * b1 < 56320))
    (h2 : ¬(56320 ≤ b0 + 256 * b1 ∧ b0 + 256 * b1 < 57344)) :
    decodeUtf16le (b0 :: b1 :: rest) =
      match decodeUtf16le rest with
      | some cs => some ((b0 + 256 * b1) :: cs)
      | none => none := by
  rcases rest with _ | ⟨x, _ | ⟨y, t⟩⟩
  · simp only [decodeUtf16le, if_neg h1, if_neg h2]
  · simp only [decodeUtf16le, if_neg h1, if_neg h2]
  · simp only [decodeUtf16le, if_neg h1, if_neg h2]

theorem utf16leEncode_length {s : List Nat} (h : ∀ c ∈ s, ValidChar c) :
    (utf16leEncode s).length = 2 * s.length := by
  induction s with
  | nil => rfl
  | cons c cs ih =>
    have hc : c < 65536 := by
      rcases h c (by simp) with h1 | h1
      · omega
      · omega
    rw [utf16leEncode, utf16leEncodeChar_bmp hc]
    simp only [List.cons_append, List.nil_append, List.length_cons]
    rw [ih fun x hx => h x (by simp [hx])]
    omega

theorem decodeUtf16le_encode {s : List Nat} (h : ∀ c ∈ s, ValidChar c) :
    decodeUtf16le (utf16leEncode s) = some s := by
  induction s with
  | nil => rfl
  | cons c cs ih =>
    have hv := h c (by simp)
    have hc : c < 65536 := by rcases hv with h1 | h1 <;> omega
    rw [utf16leEncode, utf16leEncodeChar_bmp hc, List.cons_append, List.cons_append,
      List.nil_append]
    have hu : c % 256 + 256 * (c / 256 % 256) = c := by omega
    have h1 : ¬(55296 ≤ c % 256 + 256 * (c / 256 % 256) ∧
        c % 256 + 256 * (c / 256 % 256) < 56320) := by
      rw [hu]; rcases hv with h1 | h1 <;> omega
    have h2 : ¬(56320 ≤ c % 256 + 256 * (c / 256 % 256) ∧
        c % 256 + 256 * (c / 256 % 256) < 57344) := by
      rw [hu]; rcases hv with h1 | h1 <;> omega
    rw [decodeUtf16le_cons _ h1 h2, ih fun x hx => h x (by simp [hx]), hu]

theorem decodeValueUnits_encode {s : List Nat} (h : ∀ c ∈ s, ValidChar c)
    (r : List Nat) :
    decodeValueUnits s.length (utf16leEncode s ++ r) =
      some (s.map (fun c => if c = 10 then 182 else c), r) := by
  induction s with
  | nil => rfl
  | cons c cs ih =>
    have hv := h c (by simp)
    have hc : c < 65536 := by rcases hv with h1 | h1 <;> omega
    rw [utf16leEncode, utf16leEncodeChar_bmp hc]
    simp only [List.length_cons, List.cons_append, List.nil_append, List.append_assoc]
    simp only [decodeValueUnits, List.take_succ_cons, List.take_zero, List.drop_succ_cons,
      List.drop_zero]
    by_cases h10 : c = 10
    · subst h10
      rw [if_pos (by norm_num)]
      rw [ih fun x hx => h x (by simp [hx])]
      simp
    · have hne : ¬([c % 256, c / 256 % 256] = [10, 0]) := by
        intro he
        simp only [List.cons.injEq, and_true] at he
        omega
      rw [if_neg (by simpa using hne)]
      have hu : c % 256 + 256 * (c / 256 % 256) = c := by omega
      have hdec : decodeUtf16le [c % 256, c / 256 % 256] = some [c] := by
        have h1 : ¬(55296 ≤ c % 256 + 256 * (c / 256 % 256) ∧
            c % 256 + 256 * (c / 256 % 256) < 56320) := by
          rw [hu]; rcases hv with h1 | h1 <;> omega
        have h2 : ¬(56320 ≤ c % 256 + 256 * (c / 256 % 256) ∧
            c % 256 + 256 * (c / 256 % 256) < 57344) := by
          rw [hu]; rcases hv with h1 | h1 <;> omega
        rw [decodeUtf16le_cons _ h1 h2]
        simp [decodeUtf16le, hu]
      rw [hdec, ih fun x hx => h x (by simp [hx])]
      simp [h10]

theorem rstripRN_eq_self {v : List Nat} (h10 : (10 : Nat) ∉ v)
    (h13 : v.getLast? ≠ some 13) : rstripRN v = v := by
  unfold rstripRN
  cases hrev : v.reverse with
  | nil =>
    simp only [List.dropWhile_nil, List.reverse_nil]
    exact (List.reverse_eq_nil_iff.mp hrev).symm
  | cons a t =>
    have hlast : v.getLast? = some a := by
      rw [← List.head?_reverse, hrev]
      rfl
    have hmem : a ∈ v := by
      have : a ∈ v.reverse := by rw [hrev]; simp
      exact List.mem_reverse.mp this
    have ha13 : a ≠ 13 := fun he => h13 (he ▸ hlast)
    have ha10 : a ≠ 10 := fun he => h10 (he ▸ hmem)
    rw [List.dropWhile_cons_of_neg (by simp [ha13, ha10]), ← hrev, List.reverse_reverse]

/-! ## Path-normalization lemmas -/

theorem map_slashToBack_eq_self {s : List Nat} (h : (47 : Nat) ∉ s) :
    s.map slashToBack = s := by
  induction s with
  | nil => rfl
  | cons c cs ih =>
    have hc : c ≠ 47 := fun he => h (he ▸ List.mem_cons_self c cs)
    rw [List.map_cons, ih fun hm => h (List.mem_cons_of_mem c hm)]
    simp [slashToBack, hc]

theorem not_mem_47_map_slashToBack (s : List Nat) :
    (47 : Nat) ∉ s.map slashToBack := by
  intro h
  obtain ⟨c, _, hc⟩ := List.mem_map.mp h
  by_cases h47 : c = 47 <;> simp [slashToBack, h47] at hc

theorem afterFirstSep_trav (s : List Nat) :
    afterFirstSep (46 :: 46 :: 92 :: s) = s := by
  have h92 : (92 : Nat) ∈ 46 :: 46 :: 92 :: s := by simp
  rw [afterFirstSep, if_pos h92]
  simp [dropPast]

theorem stripTraversals_cons_trav (s : List Nat) :
    stripTraversals (46 :: 46 :: 92 :: s) = stripTraversals s := by
  have ht : hasTraversalHead (46 :: 46 :: 92 :: s) = true := by
    simp [hasTraversalHead]
  show stripTraversalsFuel (46 :: 46 :: 92 :: s).length (46 :: 46 :: 92 :: s) =
    stripTraversals s
  rw [show (46 :: 46 :: 92 :: s).length = s.length + 2 + 1 by simp]
  show (if hasTraversalHead (46 :: 46 :: 92 :: s) then
      stripTraversalsFuel (s.length + 2) (afterFirstSep (46 :: 46 :: 92 :: s))
    else 46 :: 46 :: 92 :: s) = stripTraversals s
  rw [if_pos ht, afterFirstSep_trav]
  exact stripTraversalsFuel_of_le (by omega)

theorem stripTraversals_eq_self {s : List Nat} (h : hasTraversalHead s = false) :
    stripTraversals s = s := by
  unfold stripTraversals
  cases hl : s.length with
  | zero => rfl
  | succ n =>
    show (if hasTraversalHead s then stripTraversalsFuel n (afterFirstSep s) else s) = s
    rw [if_neg (by simp [h])]

theorem lstripSeps_eq_self {s : List Nat} (h92 : s.head? ≠ some 92)
    (h47 : (47 : Nat) ∉ s) : lstripSeps s = s := by
  cases s with
  | nil => rfl
  | cons c cs =>
    have hc92 : c ≠ 92 := fun he => h92 (by rw [he]; rfl)
    have hc47 : c ≠ 47 := fun he => h47 (he ▸ List.mem_cons_self c cs)
    unfold lstripSeps
    rw [List.dropWhile_cons_of_neg (by simp [hc92, hc47])]

theorem hasTraversalHead_eq_false {s : List Nat} (h1 : s.take 3 ≠ [46, 46, 92])
    (h2 : (47 : Nat) ∉ s) : hasTraversalHead s = false := by
  unfold hasTraversalHead
  rw [Bool.or_eq_false_iff]
  refine ⟨by simpa using h1, ?_⟩
  rw [decide_eq_false_iff_not]
  intro he
  exact h2 (List.take_subset 3 s (by rw [he]; simp))

theorem normalizePath_binPath {p : List Nat} (hp : ValidPath p) :
    normalizePath (binPath p) = p := by
  obtain ⟨-, -, h47, htrav, hhead⟩ := hp
  have hmap : p.map slashToBack = p := map_slashToBack_eq_self h47
  unfold normalizePath binPath
  rw [hmap, List.map_append, hmap]
  have hpre : ([46, 46, 92, 46, 46, 92] : List Nat).map slashToBack =
      [46, 46, 92, 46, 46, 92] := by decide
  rw [hpre]
  show lstripSeps (stripTraversals (46 :: 46 :: 92 :: 46 :: 46 :: 92 :: p)) = p
  rw [stripTraversals_cons_trav, stripTraversals_cons_trav,
    stripTraversals_eq_self (hasTraversalHead_eq_false htrav h47),
    lstripSeps_eq_self hhead h47]

/-! ## Round-trip lemmas for the strict decoder -/

theorem take_two_cons (a b : Nat) (l : List Nat) : ([a, b] ++ l).take 2 = [a, b] := rfl

theorem drop_two_cons (a b : Nat) (l : List Nat) : ([a, b] ++ l).drop 2 = l := rfl

theorem validChar_pilcrowToNl {c : Nat} (h : ValidChar c) :
    ValidChar (pilcrowToNl c) := by
  by_cases h182 : c = 182
  · simp [pilcrowToNl, h182, ValidChar]
  · simpa [pilcrowToNl, h182] using h

theorem map_pilcrow_back {v : List Nat} (h10 : (10 : Nat) ∉ v) :
    (v.map pilcrowToNl).map (fun c => if c = 10 then 182 else c) = v := by
  rw [List.map_map]
  have hpt : ∀ c ∈ v, ((fun c => if c = 10 then 182 else c) ∘ pilcrowToNl) c = id c := by
    intro c hc
    by_cases h182 : c = 182
    · simp [pilcrowToNl, h182]
    · have hc10 : c ≠ 10 := fun he => h10 (he ▸ hc)
      simp [pilcrowToNl, h182, hc10]
  rw [List.map_congr_left hpt, List.map_id]

theorem strictRecordValue_encode {v : List Nat} (hv : ValidValue v) (r : List Nat) :
    strictRecordValue (encodeValueField v ++ r) = some (v, r) := by
  obtain ⟨⟨hchars, hlen⟩, hne, h10, h13⟩ := hv
  have hchars2 : ∀ c ∈ v.map pilcrowToNl, ValidChar c := by
    intro c hc
    obtain ⟨x, hx, hxc⟩ := List.mem_map.mp hc
    exact hxc ▸ validChar_pilcrowToNl (hchars x hx)
  rw [strictRecordValue, encodeValueField, encodeText]
  simp only [List.append_assoc, List.length_map]
  rw [readValueLengthNeg_write v.length _ (by omega)]
  dsimp only
  have hpos : 0 < v.length := List.length_pos.mpr hne
  rw [if_pos hpos]
  rw [show v.length = (v.map pilcrowToNl).length from (List.length_map v pilcrowToNl).symm,
    decodeValueUnits_encode hchars2 ([0, 0] ++ r)]
  dsimp only
  rw [map_pilcrow_back h10, rstripRN_eq_self h10 h13, drop_two_cons]

theorem strictRecords_encode {rs : List RecordT} (h : ∀ x ∈ rs, ValidRecord x)
    (r : List Nat) :
    strictRecords rs.length ((rs.map encodeRecord).flatten ++ r) = some (rs, r) := by
  induction rs generalizing r with
  | nil => rfl
  | cons rec rest ih =>
    obtain ⟨⟨hkchars, hklen⟩, hkne, hv⟩ := h rec (by simp)
    simp only [List.map_cons, List.flatten_cons, List.length_cons, List.append_assoc]
    rw [strictRecords,
      show encodeRecord rec = encodeText rec.1 ++ encodeValueField rec.2 from rfl,
      encodeText]
    simp only [List.append_assoc]
    rw [readNameLengthNeg_write rec.1.length _ (by omega)]
    dsimp only
    rw [show 2 * rec.1.length = (utf16leEncode rec.1).length from
      (utf16leEncode_length hkchars).symm]
    rw [List.take_left]
    rw [List.drop_left]
    rw [decodeUtf16le_encode hkchars]
    rw [drop_two_cons]
    rw [strictRecordValue_encode hv]
    show (match strictRecords rest.length ((List.map encodeRecord rest).flatten ++ r) with
      | none => none
      | some (rs, s4) => some (((rec.1, rec.2) : RecordT) :: rs, s4)) = some (rec :: rest, r)
    rw [ih (fun x hx => h x (List.mem_cons_of_mem rec hx)) r]

theorem decodeName_of_utf16 {bs x : List Nat} (h : decodeUtf16le bs = some x) :
    decodeName bs = x := by
  rw [decodeName, h]

theorem strictSections_encode {ss : List SectionT} (h : ∀ x ∈ ss, ValidSection x)
    (r : List Nat) :
    strictSections ss.length ((ss.map encodeSection).flatten ++ r) = some (ss, r) := by
  induction ss generalizing r with
  | nil => rfl
  | cons sec rest ih =>
    obtain ⟨⟨hnchars, hnlen⟩, hnne, hcnt, hrecs⟩ := h sec (by simp)
    simp only [List.map_cons, List.flatten_cons, List.length_cons, List.append_assoc]
    rw [strictSections,
      show encodeSection sec = encodeText sec.1 ++ writeIntBE sec.2.length ++
        (sec.2.map encodeRecord).flatten from rfl,
      encodeText]
    simp only [List.append_assoc]
    rw [readNameLengthNeg_write sec.1.length _ (by omega)]
    dsimp only
    rw [show 2 * sec.1.length = (utf16leEncode sec.1).length from
      (utf16leEncode_length hnchars).symm]
    rw [List.take_left]
    rw [List.drop_left]
    rw [decodeUtf16le_encode hnchars]
    rw [drop_two_cons]
    rw [readIntBE_writeIntBE sec.2.length _ (by omega) (by omega)]
    show (match strictRecords sec.2.length ((sec.2.map encodeRecord).flatten ++
        ((rest.map encodeSection).flatten ++ r)) with
      | none => none
      | some (rs, s3) =>
        match strictSections rest.length s3 with
        | none => none
        | some (ss2, s4) => some (((sec.1, rs) : SectionT) :: ss2, s4)) = some (sec :: rest, r)
    rw [strictRecords_encode hrecs]
    show (match strictSections rest.length ((rest.map encodeSection).flatten ++ r) with
      | none => none
      | some (ss2, s4) => some (((sec.1, sec.2) : SectionT) :: ss2, s4)) = some (sec :: rest, r)
    rw [ih (fun x hx => h x (List.mem_cons_of_mem sec hx)) r]

theorem binPath_chars {p : List Nat} (h : ∀ c ∈ p, ValidChar c) :
    ∀ c ∈ binPath p, ValidChar c := by
  intro c hc
  rw [binPath] at hc
  rcases List.mem_append.mp hc with hpre | hmap
  · have h46 : c = 46 ∨ c = 92 ∨ c = 46 ∨ c = 92 := by
      simpa using hpre
    rcases h46 with h1 | h1 | h1 | h1 <;> (rw [h1]; exact Or.inl (by norm_num))
  · obtain ⟨x, hx, hxc⟩ := List.mem_map.mp hmap
    by_cases h47 : x = 47
    · rw [← hxc]
      simp [slashToBack, h47, ValidChar]
    · rw [← hxc]
      simpa [slashToBack, h47] using h x hx

theorem binPath_length (p : List Nat) : (binPath p).length = 6 + p.length := by
  simp [binPath]
  omega

theorem strictEntriesLoop_encode {es : List Entry} (h : ∀ x ∈ es, ValidEntry x)
    (r : List Nat) :
    strictEntriesLoop es.length ((es.map encodeEntry).flatten ++ r) = some (es, r) := by
  induction es generalizing r with
  | nil => rfl
  | cons e rest ih =>
    obtain ⟨hpath, hscnt, hsecs⟩ := h e (by simp)
    obtain ⟨⟨hchars, hlen⟩, -, -, -, -⟩ := id hpath
    have hbchars := binPath_chars hchars
    have hblen := binPath_length e.path
    simp only [List.map_cons, List.flatten_cons, List.length_cons, List.append_assoc]
    rw [strictEntriesLoop,
      show encodeEntry e = encodeText (binPath e.path) ++ writeIntBE e.sections.length ++
        (e.sections.map encodeSection).flatten from rfl,
      encodeText]
    simp only [List.append_assoc]
    rw [readNameLengthNeg_write (binPath e.path).length _ (by omega)]
    dsimp only
    rw [if_neg (by omega)]
    rw [show 2 * (binPath e.path).length = (utf16leEncode (binPath e.path)).length from
      (utf16leEncode_length hbchars).symm]
    rw [List.take_left]
    rw [List.drop_left]
    rw [decodeName_of_utf16 (decodeUtf16le_encode hbchars)]
    rw [normalizePath_binPath hpath]
    rw [drop_two_cons]
    rw [readIntBE_writeIntBE e.sections.length _ (by omega) (by omega)]
    show (match strictSections e.sections.length ((e.sections.map encodeSection).flatten ++
        ((rest.map encodeEntry).flatten ++ r)) with
      | none => none
      | some (ss, s3) =>
        match strictEntriesLoop rest.length s3 with
        | none => none
        | some (es2, s4) => some (⟨e.path, ss⟩ :: es2, s4)) = some (e :: rest, r)
    rw [strictSections_encode hsecs]
    show (match strictEntriesLoop rest.length ((rest.map encodeEntry).flatten ++ r) with
      | none => none
      | some (es2, s4) => some (⟨e.path, e.sections⟩ :: es2, s4)) = some (e :: rest, r)
    rw [ih (fun x hx => h x (List.mem_cons_of_mem e hx)) r]

theorem strictArchive_repack {es : List Entry} (h : ValidEntries es) :
    strictArchive (repackEntries es) = some es := by
  obtain ⟨hlen, hes⟩ := h
  rw [strictArchive, repackEntries]
  rw [readIntBE_writeIntBE es.length _ (by omega) (by omega)]
  show (match strictEntriesLoop es.length ((es.map encodeEntry).flatten) with
      | none => none
      | some (es2, _) => some es2) = some es
  rw [show (es.map encodeEntry).flatten = (es.map encodeEntry).flatten ++ []
    from (List.append_nil _).symm]
  rw [strictEntriesLoop_encode hes []]

/-! ## Refinement: success of the strict decoder implies the same result
for the real decoder -/

theorem refineRecordValue {s : List Nat} {x : List Nat × List Nat}
    (h : strictRecordValue s = some x) : decodeRecordValue s = some x := by
  rw [strictRecordValue] at h
  rw [decodeRecordValue]
  cases hr : readValueLengthNeg s with
  | none => rw [hr] at h; cases h
  | some p =>
    rw [hr] at h
    rw [readValueLength_of_neg hr]
    exact h

theorem refineRecords {n : Nat} {s : List Nat} {x : List RecordT × List Nat}
    (h : strictRecords n s = some x) : decodeRecords n s = some x := by
  induction n generalizing s x with
  | zero => exact h
  | succ n ih =>
    rw [strictRecords] at h
    rw [decodeRecords]
    cases h1 : readNameLengthNeg s with
    | none => rw [h1] at h; cases h
    | some p =>
      obtain ⟨klen, s1⟩ := p
      rw [h1] at h
      rw [readNameLength_of_neg h1]
      dsimp only at h ⊢
      cases h2 : decodeUtf16le (s1.take klen) with
      | none => rw [h2] at h; cases h
      | some key =>
        rw [h2] at h
        dsimp only at h ⊢
        cases h3 : strictRecordValue ((s1.drop klen).drop 2) with
        | none => rw [h3] at h; cases h
        | some q =>
          obtain ⟨v, s3⟩ := q
          rw [h3] at h
          rw [refineRecordValue h3]
          dsimp only at h ⊢
          cases h4 : strictRecords n s3 with
          | none => rw [h4] at h; cases h
          | some w =>
            obtain ⟨rs, s4⟩ := w
            rw [h4] at h
            rw [ih h4]
            exact h

theorem refineSections {n : Nat} {s : List Nat} {x : List SectionT × List Nat}
    (h : strictSections n s = some x) : decodeSections n s = some x := by
  induction n generalizing s x with
  | zero => exact h
  | succ n ih =>
    rw [strictSections] at h
    rw [decodeSections]
    cases h1 : readNameLengthNeg s with
    | none => rw [h1] at h; cases h
    | some p =>
      obtain ⟨slen, s1⟩ := p
      rw [h1] at h
      rw [readNameLength_of_neg h1]
      dsimp only at h ⊢
      cases h2 : decodeUtf16le (s1.take slen) with
      | none => rw [h2] at h; cases h
      | some name =>
        rw [h2] at h
        dsimp only at h ⊢
        cases h3 : readIntBE ((s1.drop slen).drop 2) with
        | none => rw [h3] at h; cases h
        | some q =>
          obtain ⟨recCount, s2⟩ := q
          rw [h3] at h
          dsimp only at h ⊢
          cases h4 : strictRecords recCount.toNat s2 with
          | none => rw [h4] at h; cases h
          | some w =>
            obtain ⟨rs, s3⟩ := w
            rw [h4] at h
            rw [refineRecords h4]
            dsimp only at h ⊢
            cases h5 : strictSections n s3 with
            | none => rw [h5] at h; cases h
            | some z =>
              rw [h5] at h
              rw [ih h5]
              exact h

theorem refineEntriesLoop {n : Nat} {s : List Nat} {x : List Entry × List Nat}
    (h : strictEntriesLoop n s = some x) : decodeEntriesLoop n s = some x := by
  induction n generalizing s x with
  | zero => exact h
  | succ n ih =>
    rw [strictEntriesLoop] at h
    rw [decodeEntriesLoop]
    cases h1 : readNameLengthNeg s with
    | none => rw [h1] at h; cases h
    | some p =>
      obtain ⟨nmlen, s1⟩ := p
      rw [h1] at h
      rw [readNameLength_of_neg h1]
      dsimp only at h ⊢
      by_cases hlt : nmlen < 1
      · rw [if_pos hlt] at h; cases h
      · rw [if_neg hlt] at h ⊢
        cases h3 : readIntBE ((s1.drop nmlen).drop 2) with
        | none => rw [h3] at h; cases h
        | some q =>
          obtain ⟨secCount, s2⟩ := q
          rw [h3] at h
          dsimp only at h ⊢
          cases h4 : strictSections secCount.toNat s2 with
          | none => rw [h4] at h; cases h
          | some w =>
            obtain ⟨ss, s3⟩ := w
            rw [h4] at h
            rw [refineSections h4]
            dsimp only at h ⊢
            cases h5 : strictEntriesLoop n s3 with
            | none => rw [h5] at h; cases h
            | some z =>
              rw [h5] at h
              rw [ih h5]
              exact h

theorem refineArchive {s : List Nat} {x : List Entry}
    (h : strictArchive s = some x) : decodeArchive s = some x := by
  rw [strictArchive] at h
  rw [decodeArchive]
  cases h1 : readIntBE s with
  | none => rw [h1] at h; cases h
  | some p =>
    obtain ⟨files, s1⟩ := p
    rw [h1] at h
    dsimp only at h ⊢
    cases h2 : strictEntriesLoop files.toNat s1 with
    | none => rw [h2] at h; cases h
    | some w =>
      obtain ⟨es, s2⟩ := w
      rw [h2] at h
      rw [refineEntriesLoop h2]
      exact h

/-! ## Shared helper lemmas for the claim theorems -/

theorem readNameLengthBE_write (v : Int) (r : List Nat)
    (h1 : -2147483648 ≤ v) (h2 : v < 2147483648) :
    readNameLengthBE (writeIntBE v ++ r) =
      some ((if v < 0 then (-v - 1) * 2 else v).toNat, r) := by
  rw [readNameLengthBE, readIntBE_writeIntBE v r h1 h2]
  dsimp only
  by_cases hv : v < 0
  · rw [if_pos hv, if_pos hv]
  · rw [if_neg hv, if_neg hv]

theorem readValueLengthBE_write (v : Int) (r : List Nat)
    (h1 : -2147483648 ≤ v) (h2 : v < 2147483648) :
    readValueLengthBE (writeIntBE v ++ r) =
      some ((if v < 0 then -v - 1 else v).toNat, r) := by
  rw [readValueLengthBE, readIntBE_writeIntBE v r h1 h2]
  dsimp only
  by_cases hv : v < 0
  · rw [if_pos hv, if_pos hv]
  · rw [if_neg hv, if_neg hv]

theorem decodeRecordValue_emptyNeg (rest : List Nat) :
    decodeRecordValue (writeIntBE (-1) ++ rest) = some ([], rest) := by
  rw [decodeRecordValue, readValueLengthBE_write (-1) rest (by norm_num) (by norm_num)]
  norm_num

theorem decodeRecordValue_emptyPos (rest : List Nat) :
    decodeRecordValue (writeIntBE 0 ++ rest) = some ([], rest) := by
  rw [decodeRecordValue, readValueLengthBE_write 0 rest (by norm_num) (by norm_num)]
  norm_num

/-! ## Claim theorems -/

/-- C3: for every 4-byte signed big-endian length field with value `v`,
`read_name_length_be` returns the byte count `2 * (-v - 1)` when `v` is
negative and `v` itself when it is non-negative, and `read_value_length_be`
returns the character count `-v - 1` when `v` is negative and `v` itself
when it is non-negative. -/
theorem c3_length_field_interpretation (v : Int) (r : List Nat)
    (h1 : -2147483648 ≤ v) (h2 : v < 2147483648) :
    readNameLengthBE (writeIntBE v ++ r) =
      some ((if v < 0 then 2 * (-v - 1) else v).toNat, r) ∧
    readValueLengthBE (writeIntBE v ++ r) =
      some ((if v < 0 then -v - 1 else v).toNat, r) := by
  refine ⟨?_, readValueLengthBE_write v r h1 h2⟩
  rw [readNameLengthBE_write v r h1 h2]
  simp only [Option.some.injEq, Prod.mk.injEq, and_true]
  by_cases hv : v < 0
  · rw [if_pos hv, if_pos hv]
    congr 1
    ring
  · rw [if_neg hv, if_neg hv]

/-- Witness for C3 at the negative field `v = -3` (name byte count 4, value
character count 2) and at the non-negative field `v = 5`. -/
theorem c3_length_field_interpretation_witness :
    readNameLengthBE (writeIntBE (-3) ++ []) = some (4, []) ∧
    readValueLengthBE (writeIntBE (-3) ++ []) = some (2, []) ∧
    readNameLengthBE (writeIntBE 5 ++ []) = some (5, []) := by
  have hn := c3_length_field_interpretation (-3) [] (by norm_num) (by norm_num)
  have hp := c3_length_field_interpretation 5 [] (by norm_num) (by norm_num)
  refine ⟨?_, ?_, ?_⟩
  · rw [hn.1]; norm_num; decide
  · rw [hn.2]; norm_num; decide
  · rw [hp.1]; norm_num; decide

/-- C9: a record value whose decoded length is zero (raw length field `-1`
or `0`) consumes nothing after the 4-byte length field, while a positive
decoded length makes the decoder consume the value units and the 2-byte
null terminator. -/
theorem c9_zero_value_consumes_nothing :
    (∀ rest : List Nat, decodeRecordValue (writeIntBE (-1) ++ rest) = some ([], rest)) ∧
    (∀ rest : List Nat, decodeRecordValue (writeIntBE 0 ++ rest) = some ([], rest)) ∧
    (∀ rest : List Nat, decodeRecordValue (writeIntBE (-2) ++ ([97, 0] ++ ([0, 0] ++ rest))) =
      some ([97], rest)) := by
  refine ⟨decodeRecordValue_emptyNeg, decodeRecordValue_emptyPos, ?_⟩
  intro rest
  rw [decodeRecordValue,
    readValueLengthBE_write (-2) ([97, 0] ++ ([0, 0] ++ rest)) (by norm_num) (by norm_num)]
  norm_num [decodeValueUnits, decodeUtf16le, rstripRN, List.dropWhile]
  decide

theorem decodeEntriesLoop_badName (n : Nat) (v : Int) (rest : List Nat)
    (hv : v = 0 ∨ v = -1) :
    decodeEntriesLoop (n + 1) (writeIntBE v ++ rest) = none := by
  rw [decodeEntriesLoop]
  rcases hv with hv | hv <;> subst hv <;>
    rw [readNameLengthBE_write _ _ (by norm_num) (by norm_num)] <;> norm_num

/-- C6 counterexample: an archive whose single section carries the name
length field `-1` (a zero-byte name) decodes successfully to a section with
an empty name, although the claim requires a fatal error wherever a name is
required; only the entry-path name is actually checked. -/
theorem c6_counterexample :
    decodeArchive (writeIntBE 1 ++ writeIntBE (-2) ++ [97, 0] ++ [0, 0] ++
        writeIntBE 1 ++ writeIntBE (-1) ++ [0, 0] ++ writeIntBE 0) =
      some [⟨[97], [([], [])]⟩] := by
  decide

/-- C6 as amended: a zero-byte name length (raw value `0` or `-1`) is fatal
only for the entry path; a section name or record key of length zero decodes
to an empty name without error; and a value length field of `-1` or `0`
decodes to a valid empty value. -/
theorem c6_zero_length_fields :
    (∀ rest : List Nat, decodeArchive (writeIntBE 1 ++ (writeIntBE 0 ++ rest)) = none) ∧
    (∀ rest : List Nat, decodeArchive (writeIntBE 1 ++ (writeIntBE (-1) ++ rest)) = none) ∧
    (∀ rest : List Nat, decodeSections 1 (writeIntBE (-1) ++ ([0, 0] ++ (writeIntBE 0 ++ rest))) =
      some ([([], [])], rest)) ∧
    (∀ rest : List Nat, decodeRecords 1 (writeIntBE (-1) ++ ([0, 0] ++ (writeIntBE (-1) ++ rest))) =
      some ([([], [])], rest)) ∧
    (∀ rest : List Nat, decodeRecordValue (writeIntBE (-1) ++ rest) = some ([], rest)) ∧
    (∀ rest : List Nat, decodeRecordValue (writeIntBE 0 ++ rest) = some ([], rest)) := by
  refine ⟨?_, ?_, ?_, ?_, decodeRecordValue_emptyNeg, decodeRecordValue_emptyPos⟩
  · intro rest
    rw [decodeArchive, readIntBE_writeIntBE 1 _ (by norm_num) (by norm_num)]
    dsimp only
    rw [show ((1 : Int).toNat) = 0 + 1 from rfl,
      decodeEntriesLoop_badName 0 0 rest (Or.inl rfl)]
  · intro rest
    rw [decodeArchive, readIntBE_writeIntBE 1 _ (by norm_num) (by norm_num)]
    dsimp only
    rw [show ((1 : Int).toNat) = 0 + 1 from rfl,
      decodeEntriesLoop_badName 0 (-1) rest (Or.inr rfl)]
  · intro rest
    rw [show (1 : Nat) = 0 + 1 from rfl]
    rw [decodeSections, readNameLengthBE_write (-1) _ (by norm_num) (by norm_num)]
    norm_num
    rw [show decodeUtf16le [] = some [] from rfl]
    dsimp only
    rw [readIntBE_writeIntBE 0 _ (by norm_num) (by norm_num)]
    rfl
  · intro rest
    rw [show (1 : Nat) = 0 + 1 from rfl]
    rw [decodeRecords, readNameLengthBE_write (-1) _ (by norm_num) (by norm_num)]
    norm_num
    rw [show decodeUtf16le [] = some [] from rfl]
    dsimp only
    rw [decodeRecordValue_emptyNeg]
    rfl

/-- C5 counterexample: the validation heuristic accepts an archive whose
declared entry count is `-1`, although the claim says every count outside
`(0, 10000]` (including negative ones) is rejected: the check
`files == 0 or files > 10000` lets all negative counts through. -/
theorem c5_counterexample :
    validateCoalesced (writeIntBE (-1) ++ writeIntBE (-1)) = true := by
  decide

/-- C5 as amended: on a stream long enough for the two leading reads,
validation accepts exactly the declared entry counts `files` with
`files ≠ 0 ∧ files ≤ 10000`; in particular every negative count is
accepted, not rejected. -/
theorem c5_validation_heuristic (files nmraw : Int) (rest : List Nat)
    (hf1 : -2147483648 ≤ files) (hf2 : files < 2147483648)
    (hn1 : -2147483648 ≤ nmraw) (hn2 : nmraw < 2147483648) :
    validateCoalesced (writeIntBE files ++ (writeIntBE nmraw ++ rest)) = true ↔
      files ≠ 0 ∧ files ≤ 10000 := by
  rw [validateCoalesced, readIntBE_writeIntBE files _ hf1 hf2]
  dsimp only
  rw [readNameLengthBE_write nmraw rest hn1 hn2]
  dsimp only
  by_cases hrej : files = 0 ∨ 10000 < files
  · rw [if_pos hrej]
    constructor
    · intro hfalse; cases hfalse
    · intro hok; exfalso; omega
  · rw [if_neg hrej]
    constructor
    · intro _; constructor <;> omega
    · intro _; rfl

/-- Witness for C5 as amended: entry count `3` with a negative-style first
name length is accepted, and entry count `-1` is accepted as well. -/
theorem c5_validation_heuristic_witness :
    validateCoalesced (writeIntBE 3 ++ (writeIntBE (-1) ++ [])) = true ∧
    validateCoalesced (writeIntBE (-7) ++ (writeIntBE (-1) ++ [])) = true :=
  ⟨(c5_validation_heuristic 3 (-1) [] (by norm_num) (by norm_num) (by norm_num)
      (by norm_num)).mpr (by norm_num),
   (c5_validation_heuristic (-7) (-1) [] (by norm_num) (by norm_num) (by norm_num)
      (by norm_num)).mpr (by norm_num)⟩

/-- C8 counterexample: a section name whose two bytes decode to a lone
UTF-16 surrogate aborts the whole decode (`none`), because section names and
record keys are decoded with strict UTF-16LE, not with the `decode_name`
fallback chain; the claim that name decoding never aborts is false for them. -/
theorem c8_counterexample :
    decodeArchive (writeIntBE 1 ++ writeIntBE (-2) ++ [97, 0] ++ [0, 0] ++
        writeIntBE 1 ++ writeIntBE (-2) ++ [0, 216] ++ [0, 0] ++ writeIntBE 0) = none := by
  decide

/-- C8 as amended: the `decode_name` fallback chain (used for entry paths
only) is total: for every byte string the chain UTF-16LE, then Latin-1, then
UTF-8-with-replacement returns a result, namely the value of `decode_name`. -/
theorem c8_decode_name_total (bs : List Nat) :
    decodeNameChain bs = some (decodeName bs) := by
  cases h : decodeUtf16le bs with
  | some s => rw [decodeNameChain, decodeName, h]; rfl
  | none => rw [decodeNameChain, decodeName, h]; rfl

/-- C2 counterexample: the value `¶\r` (it contains an embedded newline in
its `¶` form) does not survive encode-then-decode: the decoder trims the
trailing carriage return, so the result is `¶`. -/
theorem c2_counterexample :
    decodeRecordValue (encodeValueField [182, 13] ++ []) = some ([182], []) ∧
    decodeRecordValue (encodeValueField [182, 13] ++ []) ≠ some ([182, 13], []) := by
  decide

/-- C2 as amended: for every text value containing `¶` (182), made of
transportable characters, with no literal newline character and not ending
in a carriage return, encode translates each `¶` to the wire unit
`\n\x00` and decode translates it back, so encode followed by decode
reproduces the value exactly. -/
theorem c2_pilcrow_roundtrip (v r : List Nat) (hchars : ∀ c ∈ v, ValidChar c)
    (hlen : v.length + 8 < 2147483648) (hpil : (182 : Nat) ∈ v)
    (h10 : (10 : Nat) ∉ v) (h13 : v.getLast? ≠ some 13) :
    decodeRecordValue (encodeValueField v ++ r) = some (v, r) :=
  refineRecordValue
    (strictRecordValue_encode ⟨⟨hchars, hlen⟩, List.ne_nil_of_mem hpil, h10, h13⟩ r)

/-- Witness for C2 as amended at the value `a¶b¶`. -/
theorem c2_pilcrow_roundtrip_witness :
    decodeRecordValue (encodeValueField [97, 182, 98, 182] ++ []) =
      some ([97, 182, 98, 182], []) :=
  c2_pilcrow_roundtrip [97, 182, 98, 182] [] (by decide) (by decide) (by decide)
    (by decide) (by decide)

/-- C1 counterexample: a tree with non-empty entry path, section name and
keys whose first record has an empty value does not round-trip: the encoder
writes a 2-byte terminator after the empty value that the decoder never
skips, so every later read is desynchronized and the decode fails. -/
theorem c1_counterexample :
    decodeArchive (repackEntries [⟨[97], [([83], [([107], []), ([109], [120])])]⟩]) ≠
      some [⟨[97], [([83], [([107], []), ([109], [120])])]⟩] := by
  decide

/-- C1 as amended: decode after encode is the identity on every entry tree
whose paths are non-empty, slash-free, and do not begin with a separator or
traversal segment, whose text is made of transportable characters, and whose
values are non-empty, contain no literal newline, and do not end in a
carriage return (`ValidEntries` also carries the 32-bit size bounds). -/
theorem c1_structural_roundtrip (es : List Entry) (h : ValidEntries es) :
    decodeArchive (repackEntries es) = some es :=
  refineArchive (strictArchive_repack h)

/-- Witness for C1 as amended at a one-entry tree. -/
theorem c1_structural_roundtrip_witness :
    ValidEntries [⟨[97], [([83], [([107], [120])])]⟩] ∧
    decodeArchive (repackEntries [⟨[97], [([83], [([107], [120])])]⟩]) =
      some [⟨[97], [([83], [([107], [120])])]⟩] :=
  ⟨by decide, c1_structural_roundtrip _ (by decide)⟩

/-- C7: every text-field length the encoder emits uses the negative/unicode
style: the length field of an encoded text field reads back under the
negative-only length reader, and the whole encoded archive of a valid tree
is accepted by the strict decoder that fails on any non-negative text-field
length. -/
theorem c7_encoder_negative_style :
    (∀ (s rest : List Nat), (s.length : Int) + 1 ≤ 2147483648 →
      readNameLengthNeg (encodeText s ++ rest) =
        some (2 * s.length, utf16leEncode s ++ ([0, 0] ++ rest))) ∧
    (∀ es : List Entry, ValidEntries es →
      (strictArchive (repackEntries es)).isSome = true) := by
  constructor
  · intro s rest hs
    rw [encodeText]
    simp only [List.append_assoc]
    exact readNameLengthNeg_write s.length _ hs
  · intro es h
    rw [strictArchive_repack h]
    rfl

/-- Witness for C7 at a one-character field and a one-entry tree. -/
theorem c7_encoder_negative_style_witness :
    readNameLengthNeg (encodeText [97] ++ []) =
      some (2 * [97].length, utf16leEncode [97] ++ ([0, 0] ++ [])) ∧
    (strictArchive (repackEntries [⟨[97], [([83], [([107], [120])])]⟩])).isSome = true :=
  ⟨c7_encoder_negative_style.1 [97] [] (by norm_num),
   c7_encoder_negative_style.2 _ (by decide)⟩

theorem lstripSeps_head_not_sep (s : List Nat) :
    (lstripSeps s).head? ≠ some 92 ∧ (lstripSeps s).head? ≠ some 47 := by
  induction s with
  | nil => simp [lstripSeps, List.dropWhile]
  | cons a t ih =>
    by_cases ha : (a == 92 || a == 47) = true
    · rw [lstripSeps, List.dropWhile_cons, if_pos ha]
      exact ih
    · rw [lstripSeps, List.dropWhile_cons, if_neg ha]
      simp only [Bool.or_eq_true, beq_iff_eq, not_or] at ha
      refine ⟨fun hh => ?_, fun hh => ?_⟩ <;>
        (rw [List.head?_cons] at hh; injection hh with hh2) <;> omega

theorem stripTraversals_traversal_segs (segs : List Bool) (t : List Nat) :
    stripTraversals
      ((segs.map fun b => if b then [46, 46, 92] else [46, 46, 47]).flatten.map
        slashToBack ++ t) = stripTraversals t := by
  induction segs with
  | nil => simp
  | cons b bs ih =>
    cases b
    · show stripTraversals
        (((([46, 46, 47] : List Nat) ++
          (bs.map fun (b : Bool) => if b then [46, 46, 92] else [46, 46, 47]).flatten).map
            slashToBack) ++ t) = stripTraversals t
      rw [List.map_append,
        show ([46, 46, 47] : List Nat).map slashToBack = [46, 46, 92] from by decide,
        List.append_assoc]
      show stripTraversals (46 :: 46 :: 92 ::
        ((bs.map fun (b : Bool) => if b then [46, 46, 92] else [46, 46, 47]).flatten.map
          slashToBack ++ t)) = stripTraversals t
      rw [stripTraversals_cons_trav]
      exact ih
    · show stripTraversals
        (((([46, 46, 92] : List Nat) ++
          (bs.map fun (b : Bool) => if b then [46, 46, 92] else [46, 46, 47]).flatten).map
            slashToBack) ++ t) = stripTraversals t
      rw [List.map_append,
        show ([46, 46, 92] : List Nat).map slashToBack = [46, 46, 92] from by decide,
        List.append_assoc]
      show stripTraversals (46 :: 46 :: 92 ::
        ((bs.map fun (b : Bool) => if b then [46, 46, 92] else [46, 46, 47]).flatten.map
          slashToBack ++ t)) = stripTraversals t
      rw [stripTraversals_cons_trav]
      exact ih

/-- C4 counterexample: the path `\..\a` contains zero leading traversal
segments, yet normalization turns it into `..\a`, a path that does begin
with a `..\` segment, because leading separators are stripped only after
the traversal loop has finished; the final guarantee of the claim is false. -/
theorem c4_counterexample :
    normalizePath [92, 46, 46, 92, 97] = [46, 46, 92, 97] ∧
    hasTraversalHead [46, 46, 92, 97] = true := by
  decide

/-- C4 as amended: for a path made of `k` leading `..\` or `../` segments
followed by `rest`, where `rest` (after `/` to `\` conversion) does not
itself begin with a traversal segment, normalization converts separators,
strips exactly those `k` segments and the remaining leading separators, and
the result has no leading separator.  (When `rest` begins with separators
followed by further `..\` segments, a leading `..\` segment can survive,
as the counterexample shows.) -/
theorem c4_normalization (segs : List Bool) (rest : List Nat)
    (h : hasTraversalHead (rest.map slashToBack) = false) :
    normalizePath
        ((segs.map fun b => if b then [46, 46, 92] else [46, 46, 47]).flatten ++ rest) =
      lstripSeps (rest.map slashToBack) ∧
    (normalizePath
        ((segs.map fun b => if b then [46, 46, 92] else [46, 46, 47]).flatten ++
          rest)).head? ≠ some 92 ∧
    (normalizePath
        ((segs.map fun b => if b then [46, 46, 92] else [46, 46, 47]).flatten ++
          rest)).head? ≠ some 47 := by
  have heq : normalizePath
      ((segs.map fun b => if b then [46, 46, 92] else [46, 46, 47]).flatten ++ rest) =
      lstripSeps (rest.map slashToBack) := by
    rw [normalizePath, List.map_append, stripTraversals_traversal_segs,
      stripTraversals_eq_self h]
  refine ⟨heq, ?_, ?_⟩
  · rw [heq]; exact (lstripSeps_head_not_sep _).1
  · rw [heq]; exact (lstripSeps_head_not_sep _).2

/-- Witness for C4 as amended: two traversal segments (`..\` then `../`)
before the path `\a` are stripped, and the leading separator of `\a` is
stripped, leaving `a`. -/
theorem c4_normalization_witness :
    hasTraversalHead ([92, 97].map slashToBack) = false ∧
    normalizePath
        (([true, false].map fun b => if b then [46, 46, 92] else [46, 46, 47]).flatten ++
          [92, 97]) = lstripSeps ([92, 97].map slashToBack) ∧
    lstripSeps ([92, 97].map slashToBack) = [97] :=
  ⟨by decide, (c4_normalization [true, false] [92, 97] (by decide)).1, by decide⟩

theorem iniStep_record {st : IniState} {l : List Nat}
    (hh : isHeaderLine (stripLine l) = false) (he : (61 : Nat) ∈ stripLine l) :
    iniStep st l =
      ⟨st.cs, st.recs ++ [(eqKey (stripLine l), (eqValue (stripLine l)).map nlToPilcrow)],
        st.secs⟩ := by
  rw [iniStep]
  rw [if_neg (by simp [hh]), if_pos he]

theorem iniStep_skip {st : IniState} {l : List Nat}
    (hh : isHeaderLine (stripLine l) = false) (he : (61 : Nat) ∉ stripLine l) :
    iniStep st l = st := by
  rw [iniStep]
  rw [if_neg (by simp [hh]), if_neg he]

theorem iniStep_header_none {recs : List RecordT} {secs : List SectionT} {l : List Nat}
    (hh : isHeaderLine (stripLine l) = true) :
    iniStep ⟨none, recs, secs⟩ l = ⟨some (headerName (stripLine l)), recs, secs⟩ := by
  rw [iniStep]
  rw [if_pos hh]

theorem foldl_iniStep_records (P : List (List Nat)) (st : IniState)
    (hP : ∀ l ∈ P, isHeaderLine (stripLine l) = false ∧ (61 : Nat) ∈ stripLine l) :
    P.foldl iniStep st =
      ⟨st.cs,
        st.recs ++ P.map fun l => (eqKey (stripLine l), (eqValue (stripLine l)).map nlToPilcrow),
        st.secs⟩ := by
  induction P generalizing st with
  | nil => simp
  | cons l P2 ih =>
    obtain ⟨hh, he⟩ := hP l (by simp)
    rw [List.foldl_cons, iniStep_record hh he,
      ih _ (fun x hx => hP x (List.mem_cons_of_mem l hx))]
    simp

theorem foldl_iniStep_noheader (L : List (List Nat)) (recs : List RecordT)
    (hL : ∀ l ∈ L, isHeaderLine (stripLine l) = false) :
    ∃ recs2, L.foldl iniStep ⟨none, recs, []⟩ = ⟨none, recs2, []⟩ := by
  induction L generalizing recs with
  | nil => exact ⟨recs, rfl⟩
  | cons l L2 ih =>
    have hh := hL l (by simp)
    rw [List.foldl_cons]
    by_cases he : (61 : Nat) ∈ stripLine l
    · rw [iniStep_record hh he]
      exact ih _ (fun x hx => hL x (List.mem_cons_of_mem l hx))
    · rw [iniStep_skip hh he]
      exact ih recs (fun x hx => hL x (List.mem_cons_of_mem l hx))

/-- C10: (a) a stripped line that is neither a bracketed section header nor
contains `=` leaves the parser state unchanged (no section, no record);
(b) `key=value` lines before the first header are attributed to the first
section: parsing `P ++ hdr :: R` equals parsing `hdr :: (P ++ R)` when `P`
consists of record lines; (c) a document with no header line at all parses
to zero sections, discarding all of its `key=value` lines. -/
theorem c10_ini_document_parsing :
    (∀ (st : IniState) (l : List Nat), isHeaderLine (stripLine l) = false →
      (61 : Nat) ∉ stripLine l → iniStep st l = st) ∧
    (∀ (P R : List (List Nat)) (hdr : List Nat),
      (∀ l ∈ P, isHeaderLine (stripLine l) = false ∧ (61 : Nat) ∈ stripLine l) →
      isHeaderLine (stripLine hdr) = true →
      parseIni (P ++ hdr :: R) = parseIni (hdr :: (P ++ R))) ∧
    (∀ L : List (List Nat), (∀ l ∈ L, isHeaderLine (stripLine l) = false) →
      parseIni L = []) := by
  refine ⟨fun st l hh he => iniStep_skip hh he, ?_, ?_⟩
  · intro P R hdr hP hhdr
    rw [parseIni, parseIni]
    congr 1
    rw [List.foldl_append, List.foldl_cons, List.foldl_cons, List.foldl_append]
    rw [foldl_iniStep_records P ⟨none, [], []⟩ hP]
    rw [iniStep_header_none hhdr]
    rw [iniStep_header_none hhdr]
    rw [foldl_iniStep_records P ⟨some (headerName (stripLine hdr)), [], []⟩ hP]
  · intro L hL
    rw [parseIni]
    obtain ⟨recs2, hfold⟩ := foldl_iniStep_noheader L [] hL
    rw [hfold]
    rfl

/-- Witness for C10: a stray line changes nothing; `k=v` before the first
header lands in the section of that header; a headerless document parses to no
sections. -/
theorem c10_ini_document_parsing_witness :
    iniStep ⟨none, [], []⟩ [120] = ⟨none, [], []⟩ ∧
    parseIni ([[107, 61, 118]] ++ [91, 83, 93] :: []) =
      parseIni ([91, 83, 93] :: ([[107, 61, 118]] ++ [])) ∧
    parseIni [[107, 61, 118], [120]] = [] :=
  ⟨c10_ini_document_parsing.1 ⟨none, [], []⟩ [120] (by decide) (by decide),
   c10_ini_document_parsing.2.1 [[107, 61, 118]] [] [91, 83, 93] (by decide) (by decide),
   c10_ini_document_parsing.2.2 [[107, 61, 118], [120]] (by decide)⟩

end Debaker
